import Mathlib

/-!
Shallow embedding of the LitCovid BioC-XML ingestion/export pipeline:
`src/Transform_data_xml_neo4j.py` (streaming XML parse loop, batched Neo4j
loading) and `src/Exporter_doc.py` (flat-file export of nodes and reference
edges).

Modelling conventions:
- Python strings are `String`; a Python value that may be `None` is an
  `Option`.  Python truthiness of a string (`if s:`) is `s ≠ ""` on a
  present value, false on `None`.
- An `infon` XML child is a pair `(key, text)` where either side may be
  null (`<infon/>` has no text; a missing `key` attribute is a null key).
  The dict comprehension `{inf.get('key'): inf.text for inf in ...}` keeps
  the last binding of a duplicated key, which `dGet` mirrors by searching
  the reversed list.
- A `passage` element is modelled by its infon children and the content of
  its first `text` child (`elem.find('text')`): `none` when there is no
  `text` child, `some none` when the child exists but is empty.
- The `iterparse` loop is a fold of a step function over the event list;
  only the events the loop inspects (`start document`, `end document`,
  `end passage`) are distinguished, every other event is `otherTag`.
- The Neo4j store is a list of nodes plus a list of directed edges, and the
  Cypher `MERGE`/`SET` statements are implemented literally on it: `MERGE`
  on a node pattern updates every matching node or appends a fresh one,
  `MERGE` on an edge appends the pair only when absent, `MATCH` drops the
  row when no node matches.  `ORDER BY pmid` is lexicographic order on the
  characters of the id.
-/

/-! ### Python string helpers -/

/-- Character class removed by Python `str.strip()`. -/
def isPySpace (c : Char) : Bool :=
  c == ' ' || c == '\t' || c == '\n' || c == '\r' || c == Char.ofNat 11 || c == Char.ofNat 12

/-- Python `s.strip()`: remove leading and trailing whitespace. -/
def pyStrip (s : String) : String :=
  String.mk (((s.data.dropWhile isPySpace).reverse.dropWhile isPySpace).reverse)

/-- Python `sep.join(l)`. -/
def pyJoin (sep : String) : List String → String
  | [] => ""
  | a :: t => t.foldl (fun acc x => acc ++ sep ++ x) a

/-! ### Passages and the per-document working state (`current_doc`) -/

/-- One `passage` element: its `infon` children as `(key, text)` pairs and
the text of its first `text` child. -/
structure Passage where
  infons : List (Option String × Option String)
  text : Option (Option String)
deriving DecidableEq

/-- Membership test `'k' in infons` on the dict built from the infon list. -/
def dContains (infons : List (Option String × Option String)) (k : String) : Bool :=
  infons.any (fun kv => kv.1 == some k)

/-- Raw dict lookup `infons['k']` (last binding wins, value may be null);
`none` when the key is absent. -/
def dGet (infons : List (Option String × Option String)) (k : String) :
    Option (Option String) :=
  (infons.reverse.find? (fun kv => kv.1 == some k)).map (fun kv => kv.2)

/-- Python `infons.get('k')` as used in comparisons against non-null
strings: collapses an absent key and a null value to `none`. -/
def pyGet (infons : List (Option String × Option String)) (k : String) : Option String :=
  match dGet infons k with
  | some (some v) => some v
  | _ => none

/-- The mutable dict `current_doc` reset at each document start. -/
structure Work where
  pmid : Option String
  title : String
  abstract_parts : List String
  references : List String
deriving DecidableEq

/-- Initial `current_doc` value built at `start document`. -/
def initWork : Work := ⟨none, "", [], []⟩

/-- Lines 100-102 of the parser: unconditional assignment of
`current_doc['pmid']` whenever the identifier key is present. -/
def setPmid (w : Work) (p : Passage) : Work :=
  if dContains p.infons "article-id_pmid"
  then { w with pmid := Option.join (dGet p.infons "article-id_pmid") }
  else w

/-- Lines 104-121 of the parser: the `if/elif` chain on `section_type`
handling TITLE, ABSTRACT and REF passages. -/
def classify (w : Work) (p : Passage) : Work :=
  if pyGet p.infons "section_type" = some "TITLE" then
    match p.text with
    | some (some t) => if t = "" then w else { w with title := pyStrip t }
    | _ => w
  else if pyGet p.infons "section_type" = some "ABSTRACT" ∧
          pyGet p.infons "type" = some "abstract" then
    match p.text with
    | some (some t) =>
        if t = "" then w else { w with abstract_parts := w.abstract_parts ++ [pyStrip t] }
    | _ => w
  else if pyGet p.infons "section_type" = some "REF" then
    match pyGet p.infons "pub-id_pmid" with
    | some r => if r = "" then w else { w with references := w.references ++ [r] }
    | none => w
  else w

/-- Effect of one `end passage` event on `current_doc`. -/
def processPassage (w : Work) (p : Passage) : Work :=
  classify (setPmid w p) p

/-! ### Document records and the parse loop -/

/-- One entry of the `documents` list returned by `parse_litcovid_xml`. -/
structure DocRec where
  pmid : String
  title : String
  abstract : String
  references : List String
deriving DecidableEq

/-- Record built at `end document`: abstract is `' '.join(abstract_parts)`. -/
def mkRec (pm : String) (w : Work) : DocRec :=
  ⟨pm, w.title, pyJoin " " w.abstract_parts, w.references⟩

/-- The `iterparse` events the loop distinguishes. -/
inductive Ev where
  | startDoc
  | endDoc
  | endPassage (p : Passage)
  | otherTag
deriving DecidableEq

/-- Loop state of `parse_litcovid_xml`. -/
structure St where
  documents : List DocRec
  document_count : Nat
  current_doc : Option Work
deriving DecidableEq

/-- State before the first event. -/
def initSt : St := ⟨[], 0, none⟩

/-- Python truthiness of the optional string `current_doc['pmid']`. -/
def pmidTruthy : Option String → Bool
  | some s => !(s == "")
  | none => false

/-- One iteration of the `for event, elem in context:` loop. -/
def step (s : St) (e : Ev) : St :=
  match e with
  | .startDoc => { s with current_doc := some initWork }
  | .endDoc =>
      match s.current_doc with
      | some w =>
          match w.pmid with
          | some pm =>
              if pm = "" then { s with current_doc := none }
              else { documents := s.documents ++ [mkRec pm w],
                     document_count := s.document_count + 1,
                     current_doc := none }
          | none => { s with current_doc := none }
      | none => { s with current_doc := none }
  | .endPassage p =>
      match s.current_doc with
      | some w => { s with current_doc := some (processPassage w p) }
      | none => s
  | .otherTag => s

/-- Loop state after consuming a whole event stream. -/
def parseState (evs : List Ev) : St := evs.foldl step initSt

/-- Return value of `parse_litcovid_xml`: the accumulated `documents` list. -/
def parse_litcovid_xml (evs : List Ev) : List DocRec := (parseState evs).documents

/-- Event stream of one well-formed `document` element given its passages. -/
def docEvents (ps : List Passage) : List Ev :=
  Ev.startDoc :: (ps.map Ev.endPassage ++ [Ev.endDoc])

/-- Event stream of a corpus of consecutive document elements. -/
def corpusEvents (docs : List (List Passage)) : List Ev :=
  (docs.map docEvents).flatten

/-- Working state after all passages of one document. -/
def finalWork (ps : List Passage) : Work := ps.foldl processPassage initWork

/-- Records a single document element contributes: one when its final
pending identifier is truthy, none otherwise. -/
def emitOf (ps : List Passage) : List DocRec :=
  match (finalWork ps).pmid with
  | some pm => if pm = "" then [] else [mkRec pm (finalWork ps)]
  | none => []

/-- Records extracted from a whole corpus of document elements. -/
def parseDocs (docs : List (List Passage)) : List DocRec :=
  parse_litcovid_xml (corpusEvents docs)

/-! ### The Neo4j store and the two-pass loader -/

/-- A `Document` node.  Attribute values are optional so that a bare
placeholder node (created by the edge pass for a referenced pmid) is
distinguishable from a fully loaded one. -/
structure Node where
  pmid : String
  title : Option String
  abstract : Option String
  full_text : Option String
deriving DecidableEq

/-- The graph store: its node set and its `REFERENCES` edge set, both kept
in creation order. -/
structure Store where
  nodes : List Node
  edges : List (String × String)
deriving DecidableEq

/-- Store with no nodes and no edges. -/
def emptyStore : Store := ⟨[], []⟩

/-- The `SET` clause of the node batch: overwrite `title`, `abstract` and
the derived `full_text = title + ' ' + abstract`. -/
def setAttrs (n : Node) (d : DocRec) : Node :=
  { n with title := some d.title, abstract := some d.abstract,
           full_text := some (d.title ++ " " ++ d.abstract) }

/-- Node freshly created by `MERGE (d:Document {pmid: doc.pmid})` followed
by the `SET` clause. -/
def newNode (d : DocRec) : Node :=
  ⟨d.pmid, some d.title, some d.abstract, some (d.title ++ " " ++ d.abstract)⟩

/-- `MERGE (d:Document {pmid: doc.pmid}) SET ...` for one unwound record:
update every node matching the pmid, or create one when none matches. -/
def upsertDoc (ns : List Node) (d : DocRec) : List Node :=
  if ns.any (fun n => n.pmid == d.pmid)
  then ns.map (fun n => if n.pmid == d.pmid then setAttrs n d else n)
  else ns ++ [newNode d]

/-- `Neo4jLoader.batch_load_documents`: the `UNWIND $docs ... MERGE ... SET`
statement over one batch. -/
def batch_load_documents (st : Store) (docs : List DocRec) : Store :=
  { st with nodes := docs.foldl upsertDoc st.nodes }

/-- `MERGE (r:Document {pmid: ref_pmid}) MERGE (d)-[:REFERENCES]->(r)` for
one unwound reference of a matched source node. -/
def mergeEdgeTo (st : Store) (s t : String) : Store :=
  let ns := if st.nodes.any (fun n => n.pmid == t)
            then st.nodes
            else st.nodes ++ [⟨t, none, none, none⟩]
  let es := if (s, t) ∈ st.edges then st.edges else st.edges ++ [(s, t)]
  ⟨ns, es⟩

/-- One unwound `{pmid, refs}` row of the edge statement: `MATCH` drops the
row when no node carries the source pmid, otherwise each reference is
merged as a node and as an edge. -/
def applyEdgeItem (st : Store) (item : String × List String) : Store :=
  if st.nodes.any (fun n => n.pmid == item.1)
  then item.2.foldl (fun acc r => mergeEdgeTo acc item.1 r) st
  else st

/-- The edge statement over one batch of `{pmid, refs}` rows. -/
def applyEdgeBatch (st : Store) (items : List (String × List String)) : Store :=
  items.foldl applyEdgeItem st

/-- One store round trip issued by `load_to_neo4j`. -/
inductive Op where
  | node (batch : List DocRec)
  | edge (batch : List (String × List String))
deriving DecidableEq

/-- Effect of one batch statement on the store. -/
def applyOp (st : Store) (op : Op) : Store :=
  match op with
  | .node b => batch_load_documents st b
  | .edge b => applyEdgeBatch st b

/-- `refs_data`: the `{pmid, refs}` rows, one per record with at least one
reference. -/
def refsData (docs : List DocRec) : List (String × List String) :=
  (docs.filter (fun d => !d.references.isEmpty)).map (fun d => (d.pmid, d.references))

/-- Slicing `l[i:i+1000]` for `i in range(0, len(l), 1000)`, fuelled by the
list length so that it is structurally recursive. -/
def chunksGo {α : Type} (fuel : Nat) (l : List α) : List (List α) :=
  match fuel with
  | 0 => []
  | f + 1 => if l.isEmpty then [] else l.take 1000 :: chunksGo f (l.drop 1000)

/-- The batches of size 1000 a list is cut into. -/
def chunks1000 {α : Type} (l : List α) : List (List α) := chunksGo l.length l

/-- The sequence of store round trips `load_to_neo4j` issues: every node
batch of the corpus, then every edge batch. -/
def loadTrace (docs : List DocRec) : List Op :=
  (chunks1000 docs).map Op.node ++ (chunks1000 (refsData docs)).map Op.edge

/-- `load_to_neo4j`: run the whole trace against a store.  The constraint
setup touches no data and is not modelled. -/
def load_to_neo4j (docs : List DocRec) (st : Store) : Store :=
  (loadTrace docs).foldl applyOp st

/-! ### The reference export (`Exporter_doc.py`) -/

/-- Reducible lexicographic comparison of character lists. -/
def lexLe : List Char → List Char → Bool
  | [], _ => true
  | _ :: _, [] => false
  | a :: as, b :: bs =>
    if a.toNat < b.toNat then true
    else if b.toNat < a.toNat then false
    else lexLe as bs

/-- String order used by `ORDER BY d.pmid`. -/
def strLe (s t : String) : Bool := lexLe s.data t.data

/-- Node comparison by pmid, for the `ORDER BY` of the export queries. -/
def nodeLe (a b : Node) : Prop := strLe a.pmid b.pmid = true

instance : DecidableRel nodeLe :=
  fun a b => inferInstanceAs (Decidable (strLe a.pmid b.pmid = true))

/-- Nodes sorted in ascending pmid order, as returned by `ORDER BY d.pmid`. -/
def sortNodes (ns : List Node) : List Node := List.insertionSort nodeLe ns

/-- Pmids collected by `(d)-[:REFERENCES]->(r)` for a source pmid, in the
store's natural collection order. -/
def refs_of (st : Store) (k : String) : List String :=
  (st.edges.filter (fun e => e.1 == k)).map (fun e => e.2)

/-- One output line of the reference export: the Python
`refs = [str(ref) for ref in refs if ref]` filter, then `pmid/ref1/.../refk`
or the bare pmid. -/
def refLine (st : Store) (n : Node) : String :=
  let refs := (refs_of st n.pmid).filter (fun r => !(r == ""))
  if refs.isEmpty then n.pmid else n.pmid ++ "/" ++ pyJoin "/" refs

/-- `Neo4jExporter.export_documents_with_references`: the lines written to
the second output file, in query order. -/
def export_documents_with_references (st : Store) : List String :=
  (sortNodes st.nodes).map (refLine st)

/-- File content: each line is written with exactly one trailing newline. -/
def exportFile2 (st : Store) : String :=
  String.join ((export_documents_with_references st).map (fun l => l ++ "\n"))

/-- Modelled from the spec (section 4.4, item 2): one line per node, the id
followed by the slash-joined non-null outgoing reference targets, or the id
alone when there are none.  Used to compare the code's line builder against
the spec's wording. -/
def specRefLine (st : Store) (n : Node) : String :=
  match (refs_of st n.pmid).filter (fun r => !(r == "")) with
  | [] => n.pmid
  | t => n.pmid ++ "/" ++ pyJoin "/" t

/-! ### Claim-side views of a document's passages -/

/-- The passage carries the article-identifier key. -/
def hasIdKey (p : Passage) : Bool := dContains p.infons "article-id_pmid"

/-- Value the parser assigns to `pending_id` from this passage. -/
def idValueOf (p : Passage) : Option String :=
  Option.join (dGet p.infons "article-id_pmid")

/-- Value of the last article-identifier key in the document: outer
`none` when no passage carries the key, inner layer the (possibly null)
identifier text. -/
def lastIdValue (ps : List Passage) : Option (Option String) :=
  ((ps.filter hasIdKey).getLast?).map idValueOf

/-- Value of the first article-identifier key in the document. -/
def firstIdValue (ps : List Passage) : Option (Option String) :=
  ((ps.filter hasIdKey).head?).map idValueOf

/-- The passage is classified TITLE. -/
def isTitleSec (p : Passage) : Bool :=
  decide (pyGet p.infons "section_type" = some "TITLE")

/-- The passage is classified ABSTRACT with subtype exactly `abstract`. -/
def isAbstractSec (p : Passage) : Bool :=
  decide (pyGet p.infons "section_type" = some "ABSTRACT") &&
  decide (pyGet p.infons "type" = some "abstract")

/-- The passage has a text child whose content is non-null and non-empty
(Python truthiness of `text_elem.text`). -/
def truthyText (p : Passage) : Bool :=
  match p.text with
  | some (some t) => !(t == "")
  | _ => false

/-- Text content of a passage under the total reading that a missing or
null text is the empty string. -/
def rawTextOf (p : Passage) : String := (Option.join p.text).getD ""

/-- Trimmed text content of the last TITLE-classified passage, whatever
its text. -/
def lastTitleContent (ps : List Passage) : Option String :=
  ((ps.filter isTitleSec).getLast?).map (fun p => pyStrip (rawTextOf p))

/-- TITLE passage whose text actually overwrites the title. -/
def titleCond (p : Passage) : Bool := isTitleSec p && truthyText p

/-- Trimmed text of the last TITLE passage with truthy text. -/
def lastTitleTruthy (ps : List Passage) : Option String :=
  ((ps.filter titleCond).getLast?).map (fun p => pyStrip (rawTextOf p))

/-- ABSTRACT/abstract passage whose text actually contributes a part. -/
def absCond (p : Passage) : Bool := isAbstractSec p && truthyText p

/-- Per-passage update of `pending_id`, as an optional new value. -/
def pmidUpd (p : Passage) : Option (Option String) :=
  if hasIdKey p then some (idValueOf p) else none

/-- Per-passage update of the title, as an optional new value. -/
def titleUpd (p : Passage) : Option String :=
  if titleCond p then some (pyStrip (rawTextOf p)) else none

/-- Per-passage contribution to `abstract_parts`. -/
def absUpd (p : Passage) : Option String :=
  if absCond p then some (pyStrip (rawTextOf p)) else none

/-- The document element ends with a truthy pending identifier, so it is
emitted. -/
def emittable (ps : List Passage) : Bool := pmidTruthy (finalWork ps).pmid

/-- The document element contains at least one article-identifier
annotation key. -/
def docHasIdKey (ps : List Passage) : Bool := ps.any hasIdKey

/-! ### Concrete inputs used by counterexamples and witnesses -/

/-- Passage carrying identifier text `"100"` and the title `"A Study"`. -/
def pTitle100 : Passage :=
  ⟨[(some "article-id_pmid", some "100"), (some "section_type", some "TITLE")],
   some (some "A Study")⟩

/-- Abstract passage with text `"Results here."`. -/
def pAbs1 : Passage :=
  ⟨[(some "section_type", some "ABSTRACT"), (some "type", some "abstract")],
   some (some "Results here.")⟩

/-- REF passage citing identifier `"200"`. -/
def pRef200 : Passage :=
  ⟨[(some "section_type", some "REF"), (some "pub-id_pmid", some "200")], none⟩

/-- REF passage citing identifier `"300"`. -/
def pRef300 : Passage :=
  ⟨[(some "section_type", some "REF"), (some "pub-id_pmid", some "300")], none⟩

/-- The worked example document of the spec (section 8). -/
def exDoc : List Passage := [pTitle100, pAbs1, pRef200, pRef300]

/-- Record the spec's example document must produce. -/
def exRec : DocRec := ⟨"100", "A Study", "Results here.", ["200", "300"]⟩

/-- Passage whose only content is identifier text `"A"`. -/
def pIdA : Passage := ⟨[(some "article-id_pmid", some "A")], none⟩

/-- Passage whose only content is identifier text `"B"`. -/
def pIdB : Passage := ⟨[(some "article-id_pmid", some "B")], none⟩

/-- Passage carrying the identifier key with a null value, as produced by
an empty `<infon key="article-id_pmid"/>` element. -/
def pIdNull : Passage := ⟨[(some "article-id_pmid", none)], none⟩

/-- TITLE passage with text `"A"`. -/
def pTitleA : Passage :=
  ⟨[(some "section_type", some "TITLE")], some (some "A")⟩

/-- TITLE passage with text `"B"`. -/
def pTitleB : Passage :=
  ⟨[(some "section_type", some "TITLE")], some (some "B")⟩

/-- TITLE passage whose text child is absent. -/
def pTitleNoText : Passage :=
  ⟨[(some "section_type", some "TITLE")], none⟩

/-- ABSTRACT/abstract passage whose text child is absent. -/
def pAbsNoText : Passage :=
  ⟨[(some "section_type", some "ABSTRACT"), (some "type", some "abstract")], none⟩

/-! ### Store predicates and ordering instances -/

/-- Some node with the given pmid is in the node list. -/
def containsKey (ns : List Node) (k : String) : Bool :=
  ns.any (fun n => n.pmid == k)

/-- Number of nodes carrying the given pmid. -/
def countKey (ns : List Node) (k : String) : Nat :=
  (ns.filter (fun n => n.pmid == k)).length

/-- Attributes a node ends up with after replaying a batch over it: those
of the last record in the batch with its pmid, if any. -/
def applyLast (docs : List DocRec) (n : Node) : Node :=
  match (docs.filter (fun d => d.pmid == n.pmid)).getLast? with
  | some d => setAttrs n d
  | none => n

/-- A node with the given pmid exists in the store. -/
def nodeExists (st : Store) (k : String) : Prop :=
  ∃ n ∈ st.nodes, n.pmid = k

/-- Every edge of the store has both of its endpoint nodes in the store. -/
def edgesClosed (st : Store) : Prop :=
  ∀ e ∈ st.edges, nodeExists st e.1 ∧ nodeExists st e.2

instance : IsTrans Node nodeLe :=
  ⟨fun a b c hab hbc => by
    unfold nodeLe strLe at hab hbc ⊢
    generalize ha : a.pmid.data = x at hab
    generalize hb : b.pmid.data = y at hab hbc
    generalize hc : c.pmid.data = z at hbc
    clear ha hb hc
    induction x generalizing y z with
    | nil => rfl
    | cons u us ih =>
      cases y with
      | nil => simp [lexLe] at hab
      | cons v vs =>
        cases z with
        | nil => simp [lexLe] at hbc
        | cons w ws =>
          simp only [lexLe] at hab hbc ⊢
          split at hab
          · rename_i huv
            split at hbc
            · rename_i hvw
              simp [Nat.lt_trans huv hvw]
            · split at hbc
              · exact absurd hbc (by simp)
              · rename_i hwv hvw
                have huw : u.toNat < w.toNat := by omega
                simp [huw]
          · split at hab
            · exact absurd hab (by simp)
            · rename_i hvu huv
              split at hbc
              · rename_i hvw
                have huw : u.toNat < w.toNat := by omega
                simp [huw]
              · split at hbc
                · exact absurd hbc (by simp)
                · rename_i hwv hvw
                  have h1 : ¬ u.toNat < w.toNat := by omega
                  have h2 : ¬ w.toNat < u.toNat := by omega
                  simp only [h1, h2, if_false]
                  apply ih <;> assumption⟩

instance : IsTotal Node nodeLe :=
  ⟨fun a b => by
    unfold nodeLe strLe
    generalize a.pmid.data = x
    generalize b.pmid.data = y
    induction x generalizing y with
    | nil => left; rfl
    | cons u us ih =>
      cases y with
      | nil => right; rfl
      | cons v vs =>
        by_cases h1 : u.toNat < v.toNat
        · left; simp [lexLe, h1]
        · by_cases h2 : v.toNat < u.toNat
          · right; simp [lexLe, h2]
          · rcases ih vs with h | h
            · left; simp [lexLe, h1, h2, h]
            · right; simp [lexLe, h1, h2, h]⟩

/-! ### Generic fold lemmas -/

theorem nonempty_getLast?_some {α : Type} (y : α) (ys : List α) :
    ∃ v, (y :: ys).getLast? = some v := by
  induction ys generalizing y with
  | nil => exact ⟨y, rfl⟩
  | cons z zs ih =>
    obtain ⟨v, hv⟩ := ih z
    exact ⟨v, by rw [List.getLast?_cons_cons, hv]⟩

/-- A left fold that overwrites an accumulator whenever an update is
available computes the last available update. -/
theorem foldl_getD_upd {α β : Type} (upd : α → Option β) (l : List α) (init : β) :
    l.foldl (fun acc x => (upd x).getD acc) init = ((l.filterMap upd).getLast?).getD init := by
  induction l generalizing init with
  | nil => rfl
  | cons x t ih =>
    simp only [List.foldl_cons, List.filterMap_cons]
    cases h : upd x with
    | none => simp [ih]
    | some b =>
      rw [ih]
      cases hL : t.filterMap upd with
      | nil => simp
      | cons y ys =>
        obtain ⟨v, hv⟩ := nonempty_getLast?_some y ys
        rw [List.getLast?_cons_cons, hv]
        simp

/-- A left fold that appends an optional contribution per element appends
exactly the available contributions, in order. -/
theorem foldl_toList_upd {α β : Type} (upd : α → Option β) (l : List α) (init : List β) :
    l.foldl (fun acc x => acc ++ (upd x).toList) init = init ++ l.filterMap upd := by
  induction l generalizing init with
  | nil => simp
  | cons x t ih =>
    simp only [List.foldl_cons, List.filterMap_cons]
    cases h : upd x with
    | none => simp [ih]
    | some b => simp [ih]

/-- Guarded `filterMap` is a map over a filter. -/
theorem filterMap_guard {α β : Type} (c : α → Bool) (v : α → β) (l : List α) :
    l.filterMap (fun x => if c x then some (v x) else none) = (l.filter c).map v := by
  induction l with
  | nil => rfl
  | cons x t ih =>
    by_cases h : c x <;> simp [List.filterMap_cons, List.filter_cons, h, ih]

/-! ### Field-wise behaviour of one passage step -/

theorem setPmid_pmid (w : Work) (p : Passage) :
    (setPmid w p).pmid = (pmidUpd p).getD w.pmid := by
  unfold setPmid pmidUpd hasIdKey idValueOf
  by_cases h : dContains p.infons "article-id_pmid" <;> simp [h]

theorem setPmid_title (w : Work) (p : Passage) : (setPmid w p).title = w.title := by
  unfold setPmid; split <;> rfl

theorem setPmid_abstract_parts (w : Work) (p : Passage) :
    (setPmid w p).abstract_parts = w.abstract_parts := by
  unfold setPmid; split <;> rfl

theorem classify_pmid (w : Work) (p : Passage) : (classify w p).pmid = w.pmid := by
  unfold classify
  repeat first | rfl | split

theorem classify_title (w : Work) (p : Passage) :
    (classify w p).title = (titleUpd p).getD w.title := by
  unfold classify titleUpd titleCond isTitleSec truthyText rawTextOf
  rcases ht : p.text with _ | (_ | t) <;>
    rcases hr : pyGet p.infons "pub-id_pmid" with _ | r <;>
    by_cases h1 : pyGet p.infons "section_type" = some "TITLE" <;>
    by_cases h2 : pyGet p.infons "section_type" = some "ABSTRACT" ∧
        pyGet p.infons "type" = some "abstract" <;>
    by_cases h3 : pyGet p.infons "section_type" = some "REF" <;>
    split_ifs <;> simp_all
  all_goals split_ifs <;> simp_all

theorem classify_abstract_parts (w : Work) (p : Passage) :
    (classify w p).abstract_parts = w.abstract_parts ++ (absUpd p).toList := by
  unfold classify absUpd absCond isAbstractSec truthyText rawTextOf
  rcases ht : p.text with _ | (_ | t) <;>
    rcases hr : pyGet p.infons "pub-id_pmid" with _ | r <;>
    by_cases h1 : pyGet p.infons "section_type" = some "TITLE" <;>
    by_cases h2 : pyGet p.infons "section_type" = some "ABSTRACT" ∧
        pyGet p.infons "type" = some "abstract" <;>
    by_cases h3 : pyGet p.infons "section_type" = some "REF" <;>
    split_ifs <;> simp_all
  all_goals split_ifs <;> simp_all

theorem processPassage_pmid (w : Work) (p : Passage) :
    (processPassage w p).pmid = (pmidUpd p).getD w.pmid := by
  unfold processPassage
  rw [classify_pmid, setPmid_pmid]

theorem processPassage_title (w : Work) (p : Passage) :
    (processPassage w p).title = (titleUpd p).getD w.title := by
  unfold processPassage
  rw [classify_title, setPmid_title]

theorem processPassage_abstract_parts (w : Work) (p : Passage) :
    (processPassage w p).abstract_parts = w.abstract_parts ++ (absUpd p).toList := by
  unfold processPassage
  rw [classify_abstract_parts, setPmid_abstract_parts]

/-! ### The working state after a whole document -/

theorem foldl_processPassage_pmid (ps : List Passage) (w : Work) :
    (ps.foldl processPassage w).pmid
      = ps.foldl (fun acc p => (pmidUpd p).getD acc) w.pmid := by
  induction ps generalizing w with
  | nil => rfl
  | cons p t ih => simp [List.foldl_cons, ih, processPassage_pmid]

theorem foldl_processPassage_title (ps : List Passage) (w : Work) :
    (ps.foldl processPassage w).title
      = ps.foldl (fun acc p => (titleUpd p).getD acc) w.title := by
  induction ps generalizing w with
  | nil => rfl
  | cons p t ih => simp [List.foldl_cons, ih, processPassage_title]

theorem foldl_processPassage_parts (ps : List Passage) (w : Work) :
    (ps.foldl processPassage w).abstract_parts
      = w.abstract_parts ++ ps.filterMap absUpd := by
  have h : (ps.foldl processPassage w).abstract_parts
      = ps.foldl (fun acc p => acc ++ (absUpd p).toList) w.abstract_parts := by
    induction ps generalizing w with
    | nil => rfl
    | cons p t ih => simp [List.foldl_cons, ih, processPassage_abstract_parts]
  rw [h, foldl_toList_upd]

theorem getLast?_map {α β : Type} (f : α → β) (l : List α) :
    (l.map f).getLast? = (l.getLast?).map f := by
  induction l with
  | nil => rfl
  | cons x t ih =>
    cases t with
    | nil => rfl
    | cons y ys => simpa [List.getLast?_cons_cons] using ih

/-- The final pending identifier is the value of the last identifier
annotation key, null when no passage carries the key. -/
theorem finalWork_pmid (ps : List Passage) :
    (finalWork ps).pmid = (lastIdValue ps).getD none := by
  unfold finalWork lastIdValue
  rw [foldl_processPassage_pmid]
  show ps.foldl (fun acc p => (pmidUpd p).getD acc) none = _
  rw [foldl_getD_upd]
  rw [show pmidUpd = fun p => if hasIdKey p then some (idValueOf p) else none from rfl]
  rw [filterMap_guard, getLast?_map]

/-- The final title is the trimmed text of the last TITLE passage with
truthy text, the empty string when there is none. -/
theorem finalWork_title (ps : List Passage) :
    (finalWork ps).title = (lastTitleTruthy ps).getD "" := by
  unfold finalWork lastTitleTruthy
  rw [foldl_processPassage_title]
  show ps.foldl (fun acc p => (titleUpd p).getD acc) "" = _
  rw [foldl_getD_upd]
  rw [show titleUpd = fun p => if titleCond p then some (pyStrip (rawTextOf p)) else none
      from rfl]
  rw [filterMap_guard, getLast?_map]

/-- The final abstract parts are the trimmed texts of the qualifying
ABSTRACT passages with truthy text, in order. -/
theorem finalWork_parts (ps : List Passage) :
    (finalWork ps).abstract_parts
      = (ps.filter absCond).map (fun p => pyStrip (rawTextOf p)) := by
  unfold finalWork
  rw [foldl_processPassage_parts]
  rw [show absUpd = fun p => if absCond p then some (pyStrip (rawTextOf p)) else none
      from rfl]
  rw [filterMap_guard]
  rfl

/-! ### The parse loop over whole documents -/

theorem foldl_step_passages (docs : List DocRec) (cnt : Nat) (w : Work)
    (ps : List Passage) :
    List.foldl step ⟨docs, cnt, some w⟩ (ps.map Ev.endPassage)
      = ⟨docs, cnt, some (ps.foldl processPassage w)⟩ := by
  induction ps generalizing w with
  | nil => rfl
  | cons p t ih => simp [List.foldl_cons, step, ih]

theorem foldl_step_doc (docs : List DocRec) (cnt : Nat) (cur : Option Work)
    (ps : List Passage) :
    List.foldl step ⟨docs, cnt, cur⟩ (docEvents ps)
      = ⟨docs ++ emitOf ps, cnt + (emitOf ps).length, none⟩ := by
  unfold docEvents
  rw [List.foldl_cons,
      show step ⟨docs, cnt, cur⟩ Ev.startDoc = ⟨docs, cnt, some initWork⟩ from rfl,
      List.foldl_append, foldl_step_passages]
  show step ⟨docs, cnt, some (finalWork ps)⟩ Ev.endDoc = _
  unfold step emitOf
  cases h : (finalWork ps).pmid with
  | none => simp [h]
  | some pm => by_cases he : pm = "" <;> simp [h, he]

theorem foldl_step_corpus (docsP : List (List Passage)) (docs : List DocRec)
    (cnt : Nat) :
    List.foldl step ⟨docs, cnt, none⟩ (corpusEvents docsP)
      = ⟨docs ++ (docsP.map emitOf).flatten,
         cnt + ((docsP.map emitOf).flatten).length, none⟩ := by
  induction docsP generalizing docs cnt with
  | nil => simp [corpusEvents]
  | cons d t ih =>
    unfold corpusEvents
    rw [List.map_cons, List.flatten_cons, List.foldl_append, foldl_step_doc]
    rw [show (t.map docEvents).flatten = corpusEvents t from rfl, ih]
    simp [List.append_assoc, Nat.add_assoc]

/-- The parser emits, in corpus order, exactly the per-document records. -/
theorem parseDocs_eq (docsP : List (List Passage)) :
    parseDocs docsP = (docsP.map emitOf).flatten := by
  unfold parseDocs parse_litcovid_xml parseState initSt
  rw [foldl_step_corpus]
  simp

theorem emitOf_length (ps : List Passage) :
    (emitOf ps).length = if emittable ps then 1 else 0 := by
  unfold emitOf emittable pmidTruthy
  cases h : (finalWork ps).pmid with
  | none => simp
  | some pm => by_cases he : pm = "" <;> simp [he]

theorem flatten_emit_length (docsP : List (List Passage)) :
    ((docsP.map emitOf).flatten).length = (docsP.filter emittable).length := by
  induction docsP with
  | nil => rfl
  | cons d t ih =>
    simp only [List.map_cons, List.flatten_cons, List.length_append, List.filter_cons,
      emitOf_length, ih]
    by_cases h : emittable d <;> simp [h] <;> omega

/-! ### Records are accumulated, never released -/

theorem step_documents_mono (s : St) (e : Ev) :
    ∃ t, (step s e).documents = s.documents ++ t := by
  unfold step
  cases e with
  | startDoc => exact ⟨[], by simp⟩
  | endDoc =>
    cases h : s.current_doc with
    | none => exact ⟨[], by simp [h]⟩
    | some w =>
      cases hp : w.pmid with
      | none => exact ⟨[], by simp [h, hp]⟩
      | some pm =>
        by_cases he : pm = ""
        · exact ⟨[], by simp [h, hp, he]⟩
        · exact ⟨[mkRec pm w], by simp [h, hp, he]⟩
  | endPassage p =>
    cases h : s.current_doc with
    | none => exact ⟨[], by simp [h]⟩
    | some w => exact ⟨[], by simp [h]⟩
  | otherTag => exact ⟨[], by simp⟩

theorem foldl_step_documents_mono (evs : List Ev) (s : St) :
    ∃ t, (List.foldl step s evs).documents = s.documents ++ t := by
  induction evs generalizing s with
  | nil => exact ⟨[], by simp⟩
  | cons e r ih =>
    obtain ⟨t2, h2⟩ := ih (step s e)
    obtain ⟨t1, h1⟩ := step_documents_mono s e
    exact ⟨t1 ++ t2, by rw [List.foldl_cons, h2, h1, List.append_assoc]⟩

/-! ### Idempotence of the node upsert -/

theorem setAttrs_pmid (n : Node) (d : DocRec) : (setAttrs n d).pmid = n.pmid := rfl

theorem setAttrs_setAttrs (n : Node) (d d' : DocRec) :
    setAttrs (setAttrs n d) d' = setAttrs n d' := rfl

theorem containsKey_map_upd (ns : List Node) (d : DocRec) (k : String) :
    containsKey (ns.map (fun n => if n.pmid == d.pmid then setAttrs n d else n)) k
      = containsKey ns k := by
  unfold containsKey
  induction ns with
  | nil => rfl
  | cons n t ih =>
    simp only [List.map_cons, List.any_cons, ih]
    congr 1
    by_cases h : n.pmid == d.pmid <;> simp [h, setAttrs]

theorem countKey_map_upd (ns : List Node) (d : DocRec) (k : String) :
    countKey (ns.map (fun n => if n.pmid == d.pmid then setAttrs n d else n)) k
      = countKey ns k := by
  unfold countKey
  induction ns with
  | nil => rfl
  | cons n t ih =>
    have hpm : (if n.pmid == d.pmid then setAttrs n d else n).pmid = n.pmid := by
      by_cases h : n.pmid == d.pmid <;> simp [h, setAttrs]
    simp only [List.map_cons, List.filter_cons, hpm]
    by_cases hk : (n.pmid == k) = true
    · rw [if_pos hk, if_pos hk]
      simp only [List.length_cons, ih]
    · rw [if_neg hk, if_neg hk]
      exact ih

theorem containsKey_upsert_mono (ns : List Node) (d : DocRec) (k : String)
    (h : containsKey ns k = true) : containsKey (upsertDoc ns d) k = true := by
  unfold upsertDoc
  split
  · rw [containsKey_map_upd]; exact h
  · unfold containsKey at h ⊢
    rw [List.any_append, h]; rfl

theorem containsKey_upsert_self (ns : List Node) (d : DocRec) :
    containsKey (upsertDoc ns d) d.pmid = true := by
  unfold upsertDoc
  split
  · rw [containsKey_map_upd]; assumption
  · unfold containsKey
    rw [List.any_append]
    simp [newNode]

theorem containsKey_foldl_mono (docs : List DocRec) (ns : List Node) (k : String)
    (h : containsKey ns k = true) :
    containsKey (docs.foldl upsertDoc ns) k = true := by
  induction docs generalizing ns with
  | nil => exact h
  | cons d t ih => exact ih (upsertDoc ns d) (containsKey_upsert_mono ns d k h)

theorem containsKey_batch (docs : List DocRec) (ns : List Node) (d : DocRec)
    (hd : d ∈ docs) : containsKey (docs.foldl upsertDoc ns) d.pmid = true := by
  induction docs generalizing ns with
  | nil => cases hd
  | cons a t ih =>
    rcases List.mem_cons.mp hd with h | h
    · subst h
      exact containsKey_foldl_mono t (upsertDoc ns d) d.pmid (containsKey_upsert_self ns d)
    · exact ih (upsertDoc ns a) h

theorem upsertDoc_update (ns : List Node) (d : DocRec)
    (h : containsKey ns d.pmid = true) :
    upsertDoc ns d = ns.map (fun n => if n.pmid == d.pmid then setAttrs n d else n) := by
  unfold upsertDoc
  unfold containsKey at h
  rw [if_pos h]

theorem applyLast_cons (d : DocRec) (t : List DocRec) (n : Node) :
    applyLast (d :: t) n
      = applyLast t (if n.pmid == d.pmid then setAttrs n d else n) := by
  unfold applyLast
  by_cases h : n.pmid == d.pmid
  · have hd : d.pmid == n.pmid := by
      have := (beq_iff_eq).mp h
      simp [this]
    rw [if_pos h]
    simp only [List.filter_cons, hd, if_pos, setAttrs_pmid]
    cases hf : t.filter (fun d' => d'.pmid == n.pmid) with
    | nil => simp [setAttrs_setAttrs]
    | cons y ys =>
      obtain ⟨v, hv⟩ := nonempty_getLast?_some y ys
      rw [List.getLast?_cons_cons, hv]
      simp [setAttrs_setAttrs]
  · have hd : ¬ (d.pmid == n.pmid) = true := by
      intro hc
      exact h (by simp [(beq_iff_eq).mp hc])
    rw [if_neg h]
    simp only [List.filter_cons, hd, if_false]
    simp

theorem foldl_map_upd (docs : List DocRec) (ns : List Node)
    (h : ∀ d ∈ docs, containsKey ns d.pmid = true) :
    docs.foldl upsertDoc ns = ns.map (applyLast docs) := by
  induction docs generalizing ns with
  | nil =>
    have hmap : List.map (applyLast []) ns = ns := by
      rw [List.map_congr_left (fun n _ => (rfl : applyLast [] n = n))]
      exact List.map_id ns
    simp only [List.foldl_nil]
    exact hmap.symm
  | cons d t ih =>
    rw [List.foldl_cons, upsertDoc_update ns d (h d (List.mem_cons_self d t))]
    rw [ih (ns.map (fun n => if n.pmid == d.pmid then setAttrs n d else n))
        (fun d' hd' => by rw [containsKey_map_upd]; exact h d' (List.mem_cons_of_mem d hd'))]
    rw [List.map_map]
    exact List.map_congr_left (fun n _ => (applyLast_cons d t n).symm)

theorem mem_foldl_untouched (t : List DocRec) (s : List Node) (n : Node)
    (hmem : n ∈ t.foldl upsertDoc s) (hno : ∀ d ∈ t, d.pmid ≠ n.pmid) : n ∈ s := by
  induction t generalizing s with
  | nil => simpa using hmem
  | cons d r ih =>
    rw [List.foldl_cons] at hmem
    have hn : n ∈ upsertDoc s d :=
      ih (upsertDoc s d) hmem (fun d' hd' => hno d' (List.mem_cons_of_mem d hd'))
    have hne : d.pmid ≠ n.pmid := hno d (List.mem_cons_self d r)
    unfold upsertDoc at hn
    split at hn
    · obtain ⟨m, hm, hEq⟩ := List.mem_map.mp hn
      by_cases hmd : (m.pmid == d.pmid) = true
      · rw [if_pos hmd] at hEq
        exfalso
        apply hne
        rw [← hEq, setAttrs_pmid, (beq_iff_eq).mp hmd]
      · rw [if_neg hmd] at hEq
        rwa [← hEq]
    · rcases List.mem_append.mp hn with h1 | h2
      · exact h1
      · exfalso
        have h3 : n = newNode d := by simpa using h2
        apply hne
        rw [h3]
        rfl

theorem mem_upsert_key (s : List Node) (d : DocRec) (n : Node)
    (hmem : n ∈ upsertDoc s d) (hk : n.pmid = d.pmid) : setAttrs n d = n := by
  unfold upsertDoc at hmem
  split at hmem
  · obtain ⟨m, hm, hEq⟩ := List.mem_map.mp hmem
    by_cases hmd : (m.pmid == d.pmid) = true
    · rw [if_pos hmd] at hEq
      rw [← hEq, setAttrs_setAttrs]
    · rw [if_neg hmd] at hEq
      exfalso
      apply hmd
      rw [beq_iff_eq, hEq]
      exact hk
  · rename_i hno
    rcases List.mem_append.mp hmem with h1 | h2
    · exfalso
      apply hno
      exact List.any_eq_true.mpr ⟨n, h1, by simp [hk]⟩
    · have : n = newNode d := by simpa using h2
      rw [this]
      rfl

theorem applyLast_skip (d : DocRec) (t : List DocRec) (n : Node)
    (hex : ∃ d' ∈ t, d'.pmid = n.pmid) :
    applyLast (d :: t) n = applyLast t n := by
  unfold applyLast
  simp only [List.filter_cons]
  by_cases hd : (d.pmid == n.pmid) = true
  · rw [if_pos hd]
    cases hf : t.filter (fun d' => d'.pmid == n.pmid) with
    | nil =>
      exfalso
      obtain ⟨d', hd', hp⟩ := hex
      have : d' ∈ t.filter (fun d' => d'.pmid == n.pmid) :=
        List.mem_filter.mpr ⟨hd', by simp [hp]⟩
      rw [hf] at this
      cases this
    | cons y ys => rw [List.getLast?_cons_cons]
  · rw [if_neg hd]

theorem applyLast_fixpoint (docs : List DocRec) (ns : List Node) :
    ∀ n ∈ docs.foldl upsertDoc ns, applyLast docs n = n := by
  induction docs generalizing ns with
  | nil => intro n _; rfl
  | cons d t ih =>
    intro n hmem
    rw [List.foldl_cons] at hmem
    by_cases hex : ∃ d' ∈ t, d'.pmid = n.pmid
    · rw [applyLast_skip d t n hex]
      exact ih (upsertDoc ns d) n hmem
    · push_neg at hex
      have hn : n ∈ upsertDoc ns d := mem_foldl_untouched t (upsertDoc ns d) n hmem hex
      have htf : t.filter (fun d' => d'.pmid == n.pmid) = [] := by
        rw [List.filter_eq_nil_iff]
        intro d' hd'
        simp [hex d' hd']
      unfold applyLast
      simp only [List.filter_cons, htf]
      by_cases hd : (d.pmid == n.pmid) = true
      · rw [if_pos hd]
        exact mem_upsert_key ns d n hn ((beq_iff_eq).mp hd).symm
      · rw [if_neg hd]
        rfl

/-- Replaying a node batch over the store state it produced changes
nothing. -/
theorem batch_idempotent (ns : List Node) (docs : List DocRec) :
    docs.foldl upsertDoc (docs.foldl upsertDoc ns) = docs.foldl upsertDoc ns := by
  have hkeys : ∀ d ∈ docs, containsKey (docs.foldl upsertDoc ns) d.pmid = true :=
    fun d hd => containsKey_batch docs ns d hd
  rw [foldl_map_upd docs (docs.foldl upsertDoc ns) hkeys]
  rw [List.map_congr_left (fun n hn => applyLast_fixpoint docs ns n hn)]
  simp

theorem not_contains_count_zero (ns : List Node) (k : String)
    (h : ¬ containsKey ns k = true) : countKey ns k = 0 := by
  unfold countKey
  rw [List.length_eq_zero]
  rw [List.filter_eq_nil_iff]
  intro n hn
  intro hp
  exact h (List.any_eq_true.mpr ⟨n, hn, hp⟩)

theorem contains_count_ge_one (ns : List Node) (k : String)
    (h : containsKey ns k = true) : 1 ≤ countKey ns k := by
  obtain ⟨n, hn, hp⟩ := List.any_eq_true.mp h
  unfold countKey
  have : n ∈ ns.filter (fun n => n.pmid == k) := List.mem_filter.mpr ⟨hn, hp⟩
  cases hf : ns.filter (fun n => n.pmid == k) with
  | nil => rw [hf] at this; cases this
  | cons y ys => simp

theorem countKey_upsert_le (ns : List Node) (d : DocRec)
    (h : ∀ k, countKey ns k ≤ 1) : ∀ k, countKey (upsertDoc ns d) k ≤ 1 := by
  intro k
  unfold upsertDoc
  split
  · rw [countKey_map_upd]; exact h k
  · rename_i hno
    unfold countKey
    rw [List.filter_append, List.length_append]
    by_cases hk : d.pmid = k
    · have h0 : countKey ns k = 0 := by
        apply not_contains_count_zero
        rw [← hk]
        exact hno
      unfold countKey at h0
      rw [h0]
      simp [newNode, hk]
    · have : ([newNode d].filter (fun n => n.pmid == k)).length = 0 := by
        simp [newNode, hk]
      rw [this]
      have := h k
      unfold countKey at this
      omega

theorem countKey_foldl_le (docs : List DocRec) (ns : List Node)
    (h : ∀ k, countKey ns k ≤ 1) : ∀ k, countKey (docs.foldl upsertDoc ns) k ≤ 1 := by
  induction docs generalizing ns with
  | nil => exact h
  | cons d t ih => exact ih (upsertDoc ns d) (countKey_upsert_le ns d h)

/-! ### Referential closure of the edge pass -/

theorem nodeExists_upsert (ns : List Node) (d : DocRec) (k : String)
    (h : ∃ n ∈ ns, n.pmid = k) : ∃ n ∈ upsertDoc ns d, n.pmid = k := by
  obtain ⟨n, hn, hk⟩ := h
  unfold upsertDoc
  split
  · refine ⟨if n.pmid == d.pmid then setAttrs n d else n, List.mem_map_of_mem _ hn, ?_⟩
    by_cases hc : (n.pmid == d.pmid) = true
    · rw [if_pos hc, setAttrs_pmid]; exact hk
    · rw [if_neg hc]; exact hk
  · exact ⟨n, List.mem_append_left _ hn, hk⟩

theorem nodeExists_nodeBatch (st : Store) (b : List DocRec) (k : String)
    (h : nodeExists st k) : nodeExists (batch_load_documents st b) k := by
  unfold nodeExists batch_load_documents at *
  induction b generalizing st with
  | nil => exact h
  | cons d t ih =>
    have h1 : ∃ n ∈ upsertDoc st.nodes d, n.pmid = k := nodeExists_upsert st.nodes d k h
    have := ih ⟨upsertDoc st.nodes d, st.edges⟩ h1
    simpa using this

theorem edgesClosed_nodeBatch (st : Store) (b : List DocRec)
    (h : edgesClosed st) : edgesClosed (batch_load_documents st b) := by
  intro e he
  have he' : e ∈ st.edges := he
  obtain ⟨h1, h2⟩ := h e he'
  exact ⟨nodeExists_nodeBatch st b e.1 h1, nodeExists_nodeBatch st b e.2 h2⟩

theorem mergeEdgeTo_nodes_mono (st : Store) (s t : String) (k : String)
    (h : nodeExists st k) : nodeExists (mergeEdgeTo st s t) k := by
  obtain ⟨n, hn, hk⟩ := h
  unfold nodeExists mergeEdgeTo
  split
  · exact ⟨n, hn, hk⟩
  · exact ⟨n, List.mem_append_left _ hn, hk⟩

theorem mergeEdgeTo_target (st : Store) (s t : String) :
    nodeExists (mergeEdgeTo st s t) t := by
  unfold nodeExists mergeEdgeTo
  split
  · rename_i hc
    obtain ⟨n, hn, hp⟩ := List.any_eq_true.mp hc
    exact ⟨n, hn, (beq_iff_eq).mp hp⟩
  · exact ⟨⟨t, none, none, none⟩, List.mem_append_right _ (by simp), rfl⟩

theorem edgesClosed_mergeEdgeTo (st : Store) (s t : String)
    (hs : nodeExists st s) (hc : edgesClosed st) :
    edgesClosed (mergeEdgeTo st s t) ∧ nodeExists (mergeEdgeTo st s t) s := by
  refine ⟨?_, mergeEdgeTo_nodes_mono st s t s hs⟩
  intro e he
  have hedges : e ∈ st.edges ∨ e = (s, t) := by
    unfold mergeEdgeTo at he
    dsimp only at he
    split at he
    · exact Or.inl he
    · rcases List.mem_append.mp he with h1 | h2
      · exact Or.inl h1
      · exact Or.inr (by simpa using h2)
  rcases hedges with h1 | h2
  · obtain ⟨hx, hy⟩ := hc e h1
    exact ⟨mergeEdgeTo_nodes_mono st s t e.1 hx, mergeEdgeTo_nodes_mono st s t e.2 hy⟩
  · subst h2
    exact ⟨mergeEdgeTo_nodes_mono st s t s hs, mergeEdgeTo_target st s t⟩

theorem edgesClosed_applyEdgeItem (st : Store) (item : String × List String)
    (hc : edgesClosed st) : edgesClosed (applyEdgeItem st item) := by
  unfold applyEdgeItem
  split
  · rename_i hmatch
    have hs : nodeExists st item.1 := by
      obtain ⟨n, hn, hp⟩ := List.any_eq_true.mp hmatch
      exact ⟨n, hn, (beq_iff_eq).mp hp⟩
    clear hmatch
    induction item.2 generalizing st with
    | nil => exact hc
    | cons r rs ih =>
      rw [List.foldl_cons]
      obtain ⟨hc', hs'⟩ := edgesClosed_mergeEdgeTo st item.1 r hs hc
      exact ih (mergeEdgeTo st item.1 r) hc' hs'
  · exact hc

theorem edgesClosed_applyOp (st : Store) (op : Op)
    (hc : edgesClosed st) : edgesClosed (applyOp st op) := by
  cases op with
  | node b => exact edgesClosed_nodeBatch st b hc
  | edge b =>
    show edgesClosed (applyEdgeBatch st b)
    unfold applyEdgeBatch
    induction b generalizing st with
    | nil => exact hc
    | cons item t ih =>
      rw [List.foldl_cons]
      exact ih (applyEdgeItem st item) (edgesClosed_applyEdgeItem st item hc)

theorem dGet_some_contains (infons : List (Option String × Option String))
    (k : String) (v : Option String) (h : dGet infons k = some v) :
    dContains infons k = true := by
  unfold dGet at h
  unfold dContains
  cases hf : infons.reverse.find? (fun kv => kv.1 == some k) with
  | none => rw [hf] at h; cases h
  | some kv =>
    have hmem := List.mem_of_find?_eq_some hf
    have hpred := List.find?_some hf
    exact List.any_eq_true.mpr ⟨kv, List.mem_reverse.mp hmem, hpred⟩

theorem refLine_eq_spec (st : Store) (n : Node) : refLine st n = specRefLine st n := by
  unfold refLine specRefLine
  cases h : (refs_of st n.pmid).filter (fun r => !(r == "")) with
  | nil => simp [h]
  | cons a t => simp [h]

theorem emitOf_singleton (ps : List Passage) (r : DocRec) (h : emitOf ps = [r]) :
    ∃ pm, (finalWork ps).pmid = some pm ∧ ¬ pm = "" ∧ r = mkRec pm (finalWork ps) := by
  unfold emitOf at h
  cases hl : (finalWork ps).pmid with
  | none => rw [hl] at h; cases h
  | some pm =>
    rw [hl] at h
    dsimp only at h
    by_cases he : pm = ""
    · rw [if_pos he] at h; cases h
    · rw [if_neg he] at h
      injection h with h1 _
      exact ⟨pm, rfl, he, h1.symm⟩

/-! ### Claim theorems -/

/-- C1, counterexample.  The claim says the first occurrence of the
article-identifier key wins and later occurrences are ignored.  On the
document `[pIdA, pIdB]`, whose first identifier annotation is `"A"` and
whose second is `"B"`, the parser emits a record with id `"B"`, not
`"A"`: the assignment at line 102 of the parser overwrites `pending_id`
on every occurrence. -/
theorem C1_cx_first_id_loses :
    parseDocs [[pIdA, pIdB]] = [⟨"B", "", "", []⟩]
    ∧ firstIdValue [pIdA, pIdB] = some (some "A")
    ∧ ("B" : String) ≠ "A" := by decide

/-- C1, amended.  The emitted record's id equals the value of the LAST
article-identifier annotation of the document: every occurrence of the
key overwrites `pending_id`, so later occurrences supersede earlier
ones. -/
theorem C1_amended_last_id_wins (ps : List Passage) (r : DocRec)
    (h : emitOf ps = [r]) : lastIdValue ps = some (some r.pmid) := by
  obtain ⟨pm, hl, he, hr⟩ := emitOf_singleton ps r h
  have hp := finalWork_pmid ps
  rw [hl] at hp
  cases hv : lastIdValue ps with
  | none => rw [hv] at hp; cases hp
  | some v =>
    rw [hv] at hp
    have : v = some pm := by
      cases v with
      | none => cases hp
      | some x => simpa using hp.symm
    rw [this, hr]
    rfl

/-- C1 witness: on the two-identifier document the last value `"B"` is
the emitted id. -/
theorem C1_amended_last_id_wins_w :
    lastIdValue [pIdA, pIdB] = some (some "B") :=
  C1_amended_last_id_wins [pIdA, pIdB] ⟨"B", "", "", []⟩ (by decide)

/-- C2, counterexample.  The claim says the extractor is lazy and holds
at most one document's worth of records.  In the code every emitted
record is appended to the `documents` list kept in the loop state, and
the whole list is returned after the stream ends: after the first
document has been emitted and the second has been opened, the first
record is still held, and the final return value is the fully
materialised two-record collection. -/
theorem C2_cx_all_records_held :
    parse_litcovid_xml (docEvents [pIdA] ++ docEvents [pIdB])
        = [⟨"A", "", "", []⟩, ⟨"B", "", "", []⟩]
    ∧ (parseState (docEvents [pIdA] ++ [Ev.startDoc])).documents
        = [⟨"A", "", "", []⟩] := by decide

/-- C2, amended.  The extractor is forward-only and clears each XML
element, but it is eager: records are only ever appended to the
in-memory `documents` list and are never released before the stream
ends, so extending the stream extends the already accumulated list and
the peak record memory is proportional to the corpus. -/
theorem C2_amended_records_accumulate (evs extra : List Ev) :
    ∃ t, parse_litcovid_xml (evs ++ extra) = parse_litcovid_xml evs ++ t := by
  unfold parse_litcovid_xml parseState
  rw [List.foldl_append]
  exact foldl_step_documents_mono extra (List.foldl step initSt evs)

/-- C3, counterexample.  The claim counts emitted records as the number
of document elements in which an article-identifier annotation is
present.  A document whose identifier annotation is present but carries
a null value (an empty `<infon key="article-id_pmid"/>` element) is
dropped: one annotated document, zero records. -/
theorem C3_cx_present_but_null_id :
    docHasIdKey [pIdNull] = true ∧ parseDocs [[pIdNull]] = [] := by decide

/-- C3, amended.  The number of emitted records equals the number of
document elements whose final pending identifier (the value of the last
identifier annotation) is non-null and non-empty; other documents
contribute no record. -/
theorem C3_amended_record_count (docsP : List (List Passage)) :
    (parseDocs docsP).length = (docsP.filter emittable).length := by
  rw [parseDocs_eq, flatten_emit_length]

/-- C4, confirmed.  In the trace of store operations issued by
`load_to_neo4j`, every node-upsert batch precedes every edge-upsert
batch: the loader runs the node loop over the whole corpus before the
reference loop starts. -/
theorem C4_nodes_before_edges (docs : List DocRec) (i j : Nat)
    (bn : List DocRec) (be : List (String × List String))
    (hi : (loadTrace docs)[i]? = some (Op.node bn))
    (hj : (loadTrace docs)[j]? = some (Op.edge be)) : i < j := by
  unfold loadTrace at hi hj
  have hiA : i < ((chunks1000 docs).map Op.node).length := by
    by_contra hcon
    push_neg at hcon
    rw [List.getElem?_append_right hcon, List.getElem?_map] at hi
    cases hx : (chunks1000 (refsData docs))[i - ((chunks1000 docs).map Op.node).length]? with
    | none => rw [hx] at hi; cases hi
    | some x => rw [hx] at hi; simp at hi
  have hjB : ((chunks1000 docs).map Op.node).length ≤ j := by
    by_contra hcon
    push_neg at hcon
    rw [List.getElem?_append, if_pos hcon, List.getElem?_map] at hj
    cases hx : (chunks1000 docs)[j]? with
    | none => rw [hx] at hj; cases hj
    | some x => rw [hx] at hj; simp at hj
  omega

/-- C4 witness: for the spec's example corpus the trace has its node
batch at position 0 and its edge batch at position 1. -/
theorem C4_nodes_before_edges_w : (0 : Nat) < 1 :=
  C4_nodes_before_edges [exRec] 0 1 [exRec] [("100", ["200", "300"])]
    (by decide) (by decide)

/-- C5, confirmed.  Referential completeness is an invariant of the
whole load: starting from a store in which every edge has both endpoint
nodes, the two-pass load preserves that property, because an edge is
only ever merged after its source was matched and its target merged as
a (possibly bare placeholder) node, and nodes are never removed. -/
theorem C5_edges_have_endpoints (docs : List DocRec) (st : Store)
    (h : edgesClosed st) : edgesClosed (load_to_neo4j docs st) := by
  unfold load_to_neo4j
  have hall : ∀ (ops : List Op) (st0 : Store), edgesClosed st0 →
      edgesClosed (ops.foldl applyOp st0) := by
    intro ops
    induction ops with
    | nil => intro st0 h0; exact h0
    | cons op t ih =>
      intro st0 h0
      rw [List.foldl_cons]
      exact ih (applyOp st0 op) (edgesClosed_applyOp st0 op h0)
  exact hall (loadTrace docs) st h

/-- C5 witness: loading the spec's example corpus into an empty store,
where targets 200 and 300 are never source documents, yields a store
whose two edges both have endpoint nodes. -/
theorem C5_edges_have_endpoints_w :
    edgesClosed (load_to_neo4j (parseDocs [exDoc]) emptyStore) :=
  C5_edges_have_endpoints (parseDocs [exDoc]) emptyStore
    (by intro e he; simp [emptyStore] at he)

/-- C6, confirmed.  The node upsert is idempotent: replaying the same
batch over the store it produced leaves the store unchanged (hence every
attribute read back, including the derived `full_text`, is identical),
and under the uniqueness invariant every id of the batch is carried by
exactly one node. -/
theorem C6_node_upsert_idempotent (st : Store) (docs : List DocRec)
    (hn : ∀ k, countKey st.nodes k ≤ 1) :
    batch_load_documents (batch_load_documents st docs) docs
        = batch_load_documents st docs
    ∧ ∀ d ∈ docs, countKey (batch_load_documents st docs).nodes d.pmid = 1 := by
  constructor
  · unfold batch_load_documents
    dsimp only
    rw [batch_idempotent]
  · intro d hd
    have hge := contains_count_ge_one _ d.pmid (containsKey_batch docs st.nodes d hd)
    have hle := countKey_foldl_le docs st.nodes hn d.pmid
    unfold batch_load_documents
    dsimp only
    omega

/-- C6 witness: loading the example batch twice into an empty store
equals loading it once, with exactly one node for its id. -/
theorem C6_node_upsert_idempotent_w :
    batch_load_documents (batch_load_documents emptyStore [exRec]) [exRec]
        = batch_load_documents emptyStore [exRec]
    ∧ ∀ d ∈ [exRec], countKey (batch_load_documents emptyStore [exRec]).nodes d.pmid = 1 :=
  C6_node_upsert_idempotent emptyStore [exRec]
    (fun k => by simp [countKey, emptyStore])

/-- C7, counterexample.  The claim says the record's title equals the
trimmed text of the LAST TITLE passage.  On a document whose first TITLE
passage has text `"A"` and whose last TITLE passage has no text child,
the guard at line 107 skips the overwrite: the emitted title is `"A"`,
while the last TITLE passage's trimmed text content is empty. -/
theorem C7_cx_textless_title_kept :
    parseDocs [[pTitleA, pTitleNoText, pIdA]] = [⟨"A", "A", "", []⟩]
    ∧ lastTitleContent [pTitleA, pTitleNoText, pIdA] = some ""
    ∧ ("A" : String) ≠ "" := by decide

/-- C7, amended.  The emitted record's title equals the trimmed text of
the last TITLE passage whose text child is present and non-empty
(overwriting any previous value); TITLE passages with a missing, null or
empty text leave the previously captured title unchanged, and the title
is empty when no TITLE passage has truthy text. -/
theorem C7_amended_last_truthy_title (ps : List Passage) (r : DocRec)
    (h : emitOf ps = [r]) : r.title = (lastTitleTruthy ps).getD "" := by
  obtain ⟨pm, _, _, hr⟩ := emitOf_singleton ps r h
  rw [hr]
  show (finalWork ps).title = _
  exact finalWork_title ps

/-- C7 witness: with two truthy TITLE passages the later one's text is
the emitted title. -/
theorem C7_amended_last_truthy_title_w :
    (⟨"A", "B", "", []⟩ : DocRec).title
        = (lastTitleTruthy [pTitleA, pTitleB, pIdA]).getD "" :=
  C7_amended_last_truthy_title [pTitleA, pTitleB, pIdA] ⟨"A", "B", "", []⟩ (by decide)

/-- C8, counterexample.  The claim says every passage classified
ABSTRACT with subtype `abstract` contributes exactly one part.  On a
document with two such passages, the second having no text child, only
one part is collected: the guard at line 114 drops qualifying passages
without truthy text. -/
theorem C8_cx_textless_abstract_skipped :
    parseDocs [[pAbs1, pAbsNoText, pIdA]] = [⟨"A", "", "Results here.", []⟩]
    ∧ (([pAbs1, pAbsNoText, pIdA] : List Passage).filter isAbstractSec).length = 2
    ∧ (finalWork [pAbs1, pAbsNoText, pIdA]).abstract_parts = ["Results here."] := by decide

/-- C8, amended.  The emitted record's abstract is the space-joined,
order-preserving concatenation of the trimmed texts of exactly those
ABSTRACT/abstract passages whose text child is present and non-empty,
one part each; qualifying passages with missing, null or empty text
contribute nothing. -/
theorem C8_amended_abstract_parts (ps : List Passage) (r : DocRec)
    (h : emitOf ps = [r]) :
    r.abstract = pyJoin " " ((ps.filter absCond).map (fun p => pyStrip (rawTextOf p))) := by
  obtain ⟨pm, _, _, hr⟩ := emitOf_singleton ps r h
  rw [hr]
  show pyJoin " " (finalWork ps).abstract_parts = _
  rw [finalWork_parts]

/-- C8 witness: two truthy abstract passages contribute one part each,
joined by a single space. -/
theorem C8_amended_abstract_parts_w :
    (⟨"A", "", "Results here. Results here.", []⟩ : DocRec).abstract
        = pyJoin " " ((([pAbs1, pAbs1, pIdA] : List Passage).filter absCond).map
            (fun p => pyStrip (rawTextOf p))) :=
  C8_amended_abstract_parts [pAbs1, pAbs1, pIdA]
    ⟨"A", "", "Results here. Results here.", []⟩ (by decide)

/-- C9, confirmed.  The reference export writes one line per node, in
ascending pmid order, whose content is the id followed by the
slash-joined non-null outgoing reference targets, or the id alone when
there are none; on the spec's example corpus the full pipeline produces
the line `100/200/300` for node 100 (plus the bare lines of the two
placeholder nodes). -/
theorem C9_reference_export :
    (∀ st : Store,
        (export_documents_with_references st).length = st.nodes.length
      ∧ List.Sorted nodeLe (sortNodes st.nodes)
      ∧ export_documents_with_references st = (sortNodes st.nodes).map (specRefLine st)
      ∧ exportFile2 st
          = String.join ((export_documents_with_references st).map (fun l => l ++ "\n")))
    ∧ export_documents_with_references (load_to_neo4j (parseDocs [exDoc]) emptyStore)
        = ["100/200/300", "200", "300"] := by
  constructor
  · intro st
    refine ⟨?_, List.sorted_insertionSort nodeLe st.nodes, ?_, rfl⟩
    · unfold export_documents_with_references sortNodes
      rw [List.length_map, List.length_insertionSort]
    · unfold export_documents_with_references
      exact List.map_congr_left (fun n _ => refLine_eq_spec st n)
  · decide

/-- C10, confirmed.  A passage carrying the article-identifier key with
a null value sets the pending identifier to null, and when the last
identifier annotation of a document is null the document is dropped at
its closing tag, even if an earlier passage supplied a valid id. -/
theorem C10_null_id_overwrites :
    (∀ (w : Work) (p : Passage),
        dGet p.infons "article-id_pmid" = some none → (processPassage w p).pmid = none)
    ∧ (∀ ps : List Passage, lastIdValue ps = some none → emitOf ps = []) := by
  constructor
  · intro w p hp
    rw [processPassage_pmid]
    unfold pmidUpd hasIdKey idValueOf
    rw [dGet_some_contains p.infons "article-id_pmid" none hp]
    rw [hp]
    rfl
  · intro ps h
    unfold emitOf
    have hp : (finalWork ps).pmid = none := by
      rw [finalWork_pmid ps, h]
      rfl
    rw [hp]

/-- C10 witness: the null-valued identifier passage nulls the pending
id, and the document whose last identifier annotation is null emits
nothing despite the earlier valid id `"A"`. -/
theorem C10_null_id_overwrites_w :
    (processPassage initWork pIdNull).pmid = none
    ∧ emitOf [pIdA, pIdNull] = [] :=
  ⟨C10_null_id_overwrites.1 initWork pIdNull (by decide),
   C10_null_id_overwrites.2 [pIdA, pIdNull] (by decide)⟩
